import Mathlib

/-!
Shallow embedding of the upgrades event processor from
src/core/lib/zksync_core/src/eth_watch/event_processors/upgrades.rs.

The processor consumes a batch of L1 logs, parses each log whose first topic
matches its declared upgrade-proposal signature into a protocol upgrade
proposal, resolves an optional scheduler verification-key hash through the L1
client, drops the leading run of proposals whose id is at or below the
watermark, and then, for each remaining proposal in order, loads the previous
protocol version from the store, derives the new version and persists it;
finally the watermark is advanced to the id of the last remaining proposal.

Collaborators that the repository declares elsewhere (the ABI parser
ProtocolUpgrade::try_from, the client method scheduler_vk_hash, the DAL
methods load_previous_version and save_protocol_version_with_tx, and the pure
derivation ProtocolVersion::apply_upgrade) are modelled from the
specification: the parser and the client are universally quantified function
parameters, the store is a list of versions, and apply_upgrade is a free
constructor so that nothing about the derived version is collapsed.

Hashes, addresses and ids are modelled as natural numbers; version ids are
u16 values in the source and all comparisons there are performed on the u16
casts, which order exactly as the corresponding naturals do. The source
accesses only topics[0] of a log, so a log is modelled by that first topic
together with an opaque payload.
-/

deriving instance DecidableEq for Except

namespace EthWatch

/-- Log as delivered by the L1 event source. Only topics[0] is ever read by
the processor, so it is modelled as the field topic0; the payload is opaque
to the processor and consumed only by the parser. -/
structure Log where
  topic0 : Nat
  payload : Nat
deriving DecidableEq, Repr

/-- ProtocolUpgrade proposal decoded from one log: numeric upgrade id,
optional verifier contract address, and the remaining upgrade-parameter
fields, opaque to the processor, collapsed into one payload field. -/
structure Upgrade where
  id : Nat
  verifier_address : Option Nat
  payload : Nat
deriving DecidableEq, Repr

/-- Modelled from the spec: a persisted ProtocolVersion is either a
pre-existing base version or the result of applying exactly one upgrade
proposal, with its optional scheduler vk hash, to one previous version. The
free constructor keeps every input of the derivation, so two versions are
equal exactly when they were derived the same way. -/
inductive ProtocolVersion where
  | base (id : Nat) (payload : Nat)
  | upgraded (prev : ProtocolVersion) (upgrade : Upgrade) (vk : Option Nat)
deriving DecidableEq, Repr

/-- Modelled from the spec: the id of a persisted version; a derived version
carries the id of the proposal it was derived from. -/
def ProtocolVersion.id : ProtocolVersion → Nat
  | .base i _ => i
  | .upgraded _ upgrade _ => upgrade.id

/-- Modelled from the spec: the pure derivation previous version + proposal +
optional scheduler-vk hash -> new ProtocolVersion, kept free so that the
derived version determines its inputs. -/
def apply_upgrade (previous_version : ProtocolVersion) (upgrade : Upgrade)
    (scheduler_vk_hash : Option Nat) : ProtocolVersion :=
  .upgraded previous_version upgrade scheduler_vk_hash

/-- Store of persisted protocol versions, in persistence order. -/
abbrev Store := List ProtocolVersion

/-- Modelled from the spec: load_previous_version(id) returns the persisted
version whose id is one less than the given id, failing when it is absent. -/
def load_previous_version (store : Store) (id : Nat) : Option ProtocolVersion :=
  store.find? (fun v => v.id = id - 1)

/-- Modelled from the spec: save_version writes one record to the store. -/
def save_protocol_version_with_tx (store : Store) (v : ProtocolVersion) : Store :=
  store ++ [v]

/-- Modelled from the spec: max_applied_version_id of the store, 0 when the
store is empty. -/
def max_applied_version_id (store : Store) : Nat :=
  store.foldr (fun v m => max v.id m) 0

/-- Error kind of the L1 client collaborator, opaque to the processor. -/
structure EthClientError where
  code : Nat
deriving DecidableEq, Repr

/-- Error type returned by process_events: a log-parse failure carrying the
formatted parser message, or a propagated client error. -/
inductive Error where
  | logParse (msg : String)
  | client (e : EthClientError)
deriving DecidableEq, Repr

/-- Result of one process_events call: success, a returned error, or a
runtime panic (the expect on a missing previous version). -/
inductive ProcResult where
  | ok
  | error (e : Error)
  | panic (msg : String)
deriving DecidableEq, Repr

/-- UpgradesEventProcessor state: diamond proxy address, watermark
(last_seen_version_id), the upgrade-proposal topic signature and the
executeUpgrade short signature. -/
structure UpgradesEventProcessor where
  diamond_proxy_address : Nat
  last_seen_version_id : Nat
  upgrade_proposal_signature : Nat
  execute_upgrade_short_signature : Nat
deriving DecidableEq, Repr

/-- relevant_topic returns the stored upgrade-proposal signature. -/
def relevant_topic (proc : UpgradesEventProcessor) : Nat :=
  proc.upgrade_proposal_signature

/-- Replace only the watermark field of the processor. -/
def setWatermark (proc : UpgradesEventProcessor) (id : Nat) : UpgradesEventProcessor :=
  ⟨proc.diamond_proxy_address, id, proc.upgrade_proposal_signature,
    proc.execute_upgrade_short_signature⟩

/-- Outcome of one process_events call: final processor state, final store,
and the returned result. -/
structure ProcOutcome where
  processor : UpgradesEventProcessor
  store : Store
  result : ProcResult
deriving DecidableEq, Repr

/-- Resolution of the optional scheduler vk hash for one parsed proposal:
when a verifier address is present the client is queried, otherwise the hash
is absent; a client failure is propagated. -/
def resolve_vk (vkh : Nat → Except EthClientError Nat) (upgrade : Upgrade) :
    Except EthClientError (Option Nat) :=
  match upgrade.verifier_address with
  | some addr => (vkh addr).map some
  | none => .ok none

/-- First loop of process_events: over the logs whose first topic matches the
signature, in order, parse the log (a failure aborts with a LogParse error)
and resolve its scheduler vk hash (a client failure aborts with that error),
collecting the (proposal, optional hash) pairs. -/
def parse_and_resolve (parse : Log → Except String Upgrade)
    (vkh : Nat → Except EthClientError Nat) (sig : Nat) :
    List Log → Except Error (List (Upgrade × Option Nat))
  | [] => .ok []
  | event :: rest =>
    if event.topic0 = sig then
      match parse event with
      | .error err => .error (.logParse err)
      | .ok upgrade =>
        match resolve_vk vkh upgrade with
        | .error e => .error (.client e)
        | .ok svh =>
          match parse_and_resolve parse vkh sig rest with
          | .error e => .error e
          | .ok tl => .ok ((upgrade, svh) :: tl)
    else parse_and_resolve parse vkh sig rest

/-- Dedup step of process_events: drop the leading run of proposals whose id
is at or below the watermark (skip_while in the source). -/
def new_upgrades_of (upgrades : List (Upgrade × Option Nat)) (watermark : Nat) :
    List (Upgrade × Option Nat) :=
  upgrades.dropWhile (fun uv => decide (uv.1.id ≤ watermark))

/-- Persistence loop of process_events: for each remaining proposal in order,
load the previous version (its absence is the expect panic of the source,
reported as the panic message and leaving the store as written so far),
derive the new version and persist it. Returns the final store and the panic
message, if any. -/
def persistAll : List (Upgrade × Option Nat) → Store → Store × Option String
  | [], store => (store, none)
  | (upgrade, scheduler_vk_hash) :: rest, store =>
    match load_previous_version store upgrade.id with
    | none => (store, some "Expected previous version to be present in DB")
    | some previous_version =>
      persistAll rest
        (save_protocol_version_with_tx store
          (apply_upgrade previous_version upgrade scheduler_vk_hash))

/-- process_events of UpgradesEventProcessor: parse and resolve the matching
logs; return Ok at once when nothing was collected; drop the leading
already-applied run and return Ok when nothing remains; otherwise persist
every remaining proposal in order and, only after the last write, advance the
watermark to the id of the last remaining proposal. -/
def process_events (parse : Log → Except String Upgrade)
    (vkh : Nat → Except EthClientError Nat) (proc : UpgradesEventProcessor)
    (store : Store) (events : List Log) : ProcOutcome :=
  match parse_and_resolve parse vkh proc.upgrade_proposal_signature events with
  | .error e => ⟨proc, store, .error e⟩
  | .ok upgrades =>
    match upgrades with
    | [] => ⟨proc, store, .ok⟩
    | u0 :: urest =>
      match new_upgrades_of (u0 :: urest) proc.last_seen_version_id with
      | [] => ⟨proc, store, .ok⟩
      | uv :: rest =>
        let last_id := (rest.getLastD uv).1.id
        match persistAll (uv :: rest) store with
        | (store2, none) => ⟨setWatermark proc last_id, store2, .ok⟩
        | (store2, some msg) => ⟨proc, store2, .panic msg⟩

/-- Appending batches on the right: a successful prefix resolution composes
with the resolution of the remainder. -/
theorem parse_and_resolve_append_ok (parse : Log → Except String Upgrade)
    (vkh : Nat → Except EthClientError Nat) (sig : Nat)
    (l₁ l₂ : List Log) (u₁ : List (Upgrade × Option Nat))
    (h : parse_and_resolve parse vkh sig l₁ = .ok u₁) :
    parse_and_resolve parse vkh sig (l₁ ++ l₂) =
      (parse_and_resolve parse vkh sig l₂).map (u₁ ++ ·) := by
  induction l₁ generalizing u₁ with
  | nil =>
    simp only [parse_and_resolve, Except.ok.injEq] at h
    subst h
    simp only [List.nil_append]
    cases parse_and_resolve parse vkh sig l₂ <;> simp [Except.map]
  | cons a tl ih =>
    simp only [parse_and_resolve, List.cons_append, List.append_eq] at h ⊢
    by_cases ht : a.topic0 = sig
    · simp only [if_pos ht] at h ⊢
      cases hpa : parse a with
      | error e => simp [hpa] at h
      | ok up =>
        simp only [hpa] at h ⊢
        cases hrv : resolve_vk vkh up with
        | error e => simp [hrv] at h
        | ok svh =>
          simp only [hrv] at h ⊢
          cases hpr : parse_and_resolve parse vkh sig tl with
          | error e => simp [hpr] at h
          | ok tlu =>
            simp only [hpr, Except.ok.injEq] at h
            subst h
            rw [ih tlu hpr]
            cases parse_and_resolve parse vkh sig l₂ <;> simp [Except.map]
    · simp only [if_neg ht] at h ⊢
      exact ih u₁ h

/-- Appending batches on the right: a failing prefix resolution fails the
whole batch with the same error. -/
theorem parse_and_resolve_append_error (parse : Log → Except String Upgrade)
    (vkh : Nat → Except EthClientError Nat) (sig : Nat)
    (l₁ l₂ : List Log) (e : Error)
    (h : parse_and_resolve parse vkh sig l₁ = .error e) :
    parse_and_resolve parse vkh sig (l₁ ++ l₂) = .error e := by
  induction l₁ with
  | nil => simp [parse_and_resolve] at h
  | cons a tl ih =>
    simp only [parse_and_resolve, List.cons_append, List.append_eq] at h ⊢
    by_cases ht : a.topic0 = sig
    · simp only [if_pos ht] at h ⊢
      cases hpa : parse a with
      | error e2 => simp only [hpa] at h ⊢; exact h
      | ok up =>
        simp only [hpa] at h ⊢
        cases hrv : resolve_vk vkh up with
        | error e2 => simp only [hrv] at h ⊢; exact h
        | ok svh =>
          simp only [hrv] at h ⊢
          cases hpr : parse_and_resolve parse vkh sig tl with
          | error e2 =>
            simp only [hpr, Except.error.injEq] at h
            subst h
            rw [ih hpr]
          | ok tlu => simp [hpr] at h
    · simp only [if_neg ht] at h ⊢
      exact ih h

/-- Resolution of a batch with no matching topic collects nothing. -/
theorem parse_and_resolve_no_match (parse : Log → Except String Upgrade)
    (vkh : Nat → Except EthClientError Nat) (sig : Nat) (events : List Log)
    (h : ∀ l ∈ events, l.topic0 ≠ sig) :
    parse_and_resolve parse vkh sig events = .ok [] := by
  induction events with
  | nil => rfl
  | cons a tl ih =>
    simp only [parse_and_resolve]
    rw [if_neg (h a (List.mem_cons_self a tl))]
    exact ih (fun l hl => h l (List.mem_cons_of_mem a hl))

/-- Persistence only appends: every version present before persistAll is
still present afterwards, also when the loop stops on a missing
predecessor. -/
theorem persistAll_mono : ∀ (l : List (Upgrade × Option Nat)) (store : Store),
    ∀ v ∈ store, v ∈ (persistAll l store).1 := by
  intro l
  induction l with
  | nil => intro store v hv; exact hv
  | cons uv rest ih =>
    intro store v hv
    rcases uv with ⟨upgrade, svh⟩
    simp only [persistAll]
    cases load_previous_version store upgrade.id with
    | none => exact hv
    | some prev =>
      exact ih _ v (by simp [save_protocol_version_with_tx, hv])

/-- After a successful persistAll run, every processed proposal has a
persisted version carrying its id. -/
theorem persistAll_ids : ∀ (l : List (Upgrade × Option Nat)) (store st2 : Store),
    persistAll l store = (st2, none) →
    ∀ uv ∈ l, ∃ v ∈ st2, ProtocolVersion.id v = uv.1.id := by
  intro l
  induction l with
  | nil => intro store st2 _ uv huv; cases huv
  | cons head rest ih =>
    intro store st2 hp uv huv
    rcases head with ⟨upgrade, svh⟩
    simp only [persistAll] at hp
    cases hl : load_previous_version store upgrade.id with
    | none => simp [hl] at hp
    | some prev =>
      simp only [hl] at hp
      rcases List.mem_cons.mp huv with rfl | htl
      · refine ⟨apply_upgrade prev upgrade svh, ?_, rfl⟩
        have hmem : apply_upgrade prev upgrade svh ∈
            save_protocol_version_with_tx store (apply_upgrade prev upgrade svh) := by
          simp [save_protocol_version_with_tx]
        have hin := persistAll_mono rest _ _ hmem
        rw [hp] at hin
        exact hin
      · exact ih _ st2 hp uv htl

/-- Characterization of a successful persistAll run: the store is extended by
one new record per proposal, and the i-th new record is derived by applying
the i-th proposal to the predecessor loaded from the store as written so
far. -/
theorem persistAll_ok_chain : ∀ (l : List (Upgrade × Option Nat)) (store st2 : Store),
    persistAll l store = (st2, none) →
    ∃ newly, st2 = store ++ newly ∧ newly.length = l.length ∧
      ∀ i (hi : i < l.length),
        ∃ prev,
          load_previous_version (store ++ newly.take i) (l.get ⟨i, hi⟩).1.id = some prev ∧
          newly.take (i + 1) = newly.take i ++
            [apply_upgrade prev (l.get ⟨i, hi⟩).1 (l.get ⟨i, hi⟩).2] := by
  intro l
  induction l with
  | nil =>
    intro store st2 hp
    simp only [persistAll, Prod.mk.injEq] at hp
    exact ⟨[], by simp [hp.1.symm], rfl, fun i hi => absurd hi (Nat.not_lt_zero i)⟩
  | cons head rest ih =>
    intro store st2 hp
    rcases head with ⟨upgrade, svh⟩
    simp only [persistAll] at hp
    cases hl : load_previous_version store upgrade.id with
    | none => simp [hl] at hp
    | some prev =>
      simp only [hl] at hp
      rcases ih _ st2 hp with ⟨newly, hst, hlen, hch⟩
      refine ⟨apply_upgrade prev upgrade svh :: newly, ?_, by simp [hlen], ?_⟩
      · rw [hst]; simp [save_protocol_version_with_tx]
      · intro i hi
        cases i with
        | zero =>
          exact ⟨prev, by simpa using hl, by simp⟩
        | succ j =>
          have hj : j < rest.length := Nat.lt_of_succ_lt_succ hi
          rcases hch j hj with ⟨prev2, hload, htake⟩
          refine ⟨prev2, ?_, ?_⟩
          · have : store ++ (apply_upgrade prev upgrade svh :: newly).take (j + 1) =
                save_protocol_version_with_tx store (apply_upgrade prev upgrade svh) ++
                  newly.take j := by
              simp [save_protocol_version_with_tx]
            rw [this]
            exact hload
          · simp only [List.take_succ_cons]
            rw [htake]
            simp

/-- Ids of persisted versions are bounded by the store maximum. -/
theorem mem_le_max_applied : ∀ (store : Store) (v : ProtocolVersion),
    v ∈ store → ProtocolVersion.id v ≤ max_applied_version_id store := by
  intro store
  induction store with
  | nil => intro v h; cases h
  | cons a tl ih =>
    intro v h
    simp only [max_applied_version_id, List.foldr_cons]
    rcases List.mem_cons.mp h with rfl | h2
    · exact le_max_left _ _
    · exact le_trans (ih v h2) (le_max_right _ _)

/-- The store maximum is monotone under inclusion of stores. -/
theorem max_applied_le_of_subset : ∀ (s1 s2 : Store),
    (∀ v ∈ s1, v ∈ s2) →
    max_applied_version_id s1 ≤ max_applied_version_id s2 := by
  intro s1
  induction s1 with
  | nil => intro s2 _; simp [max_applied_version_id]
  | cons a tl ih =>
    intro s2 h
    simp only [max_applied_version_id, List.foldr_cons]
    exact max_le (mem_le_max_applied s2 a (h a (List.mem_cons_self a tl)))
      (ih s2 fun v hv => h v (List.mem_cons_of_mem a hv))

/-- getLastD of a list with an explicit head picks an element of the list
headed by that default. -/
theorem getLastD_mem {α : Type} : ∀ (rest : List α) (a : α),
    rest.getLastD a ∈ a :: rest := by
  intro rest
  induction rest with
  | nil => intro a; simp [List.getLastD]
  | cons b tl ih =>
    intro a
    have hb := ih b
    simp only [List.getLastD_cons]
    exact List.mem_cons_of_mem a hb

/-- Case analysis of one process_events call: either resolution fails and
nothing changes, or nothing remains after the dedup filter and nothing
changes, or the persistence loop runs on the nonempty remainder, finishing
either cleanly with the watermark advanced to the last remaining id, or in
the missing-predecessor panic with the watermark untouched. -/
theorem process_events_cases (parse : Log → Except String Upgrade)
    (vkh : Nat → Except EthClientError Nat) (proc : UpgradesEventProcessor)
    (store : Store) (events : List Log) :
    (∃ e, process_events parse vkh proc store events = ⟨proc, store, .error e⟩) ∨
    (process_events parse vkh proc store events = ⟨proc, store, .ok⟩ ∧
      ∃ ups, parse_and_resolve parse vkh proc.upgrade_proposal_signature events = .ok ups ∧
        new_upgrades_of ups proc.last_seen_version_id = []) ∨
    (∃ ups uv rest st2,
      parse_and_resolve parse vkh proc.upgrade_proposal_signature events = .ok ups ∧
      new_upgrades_of ups proc.last_seen_version_id = uv :: rest ∧
      ((persistAll (uv :: rest) store = (st2, none) ∧
        process_events parse vkh proc store events =
          ⟨setWatermark proc ((rest.getLastD uv).1.id), st2, .ok⟩) ∨
       (∃ msg, persistAll (uv :: rest) store = (st2, some msg) ∧
        process_events parse vkh proc store events = ⟨proc, st2, .panic msg⟩))) := by
  unfold process_events
  cases hpr : parse_and_resolve parse vkh proc.upgrade_proposal_signature events with
  | error e => exact Or.inl ⟨e, rfl⟩
  | ok upgrades =>
    cases upgrades with
    | nil =>
      refine Or.inr (Or.inl ⟨rfl, [], rfl, rfl⟩)
    | cons u0 urest =>
      cases hnu : new_upgrades_of (u0 :: urest) proc.last_seen_version_id with
      | nil => exact Or.inr (Or.inl ⟨by simp [hnu], u0 :: urest, rfl, hnu⟩)
      | cons uv rest =>
        cases hp : persistAll (uv :: rest) store with
        | mk st2 op =>
          cases op with
          | none =>
            exact Or.inr (Or.inr ⟨u0 :: urest, uv, rest, st2, rfl, hnu,
              Or.inl ⟨hp, by simp [hnu, hp]⟩⟩)
          | some msg =>
            exact Or.inr (Or.inr ⟨u0 :: urest, uv, rest, st2, rfl, hnu,
              Or.inr ⟨msg, hp, by simp [hnu, hp]⟩⟩)

/-- Concrete proposal with a given id and no verifier address. -/
def upg (i : Nat) : Upgrade := ⟨i, none, 0⟩

/-- Concrete base version with a given id. -/
def baseV (i : Nat) : ProtocolVersion := .base i 0

/-- Concrete log with a given first topic and payload. -/
def logOf (t i : Nat) : Log := ⟨t, i⟩

/-- Parser fixture that reads the proposal id off the payload and never
fails. -/
def parseById : Log → Except String Upgrade := fun l => .ok ⟨l.payload, none, 0⟩

/-- Client fixture that always returns hash 0. -/
def vkhOk : Nat → Except EthClientError Nat := fun _ => .ok 0

/-- Processor fixture with a given topic signature and watermark. -/
def procW (sig wm : Nat) : UpgradesEventProcessor := ⟨0, wm, sig, 0⟩

/-- C7: the dedup filter is a skip-while, not a full filter: it drops exactly
the maximal leading run of proposals whose id is at or below the watermark,
and retains everything from the first proposal exceeding the watermark on,
including any later proposal whose id is at or below the watermark. -/
theorem C7_dedup_is_skip_while (watermark : Nat)
    (pre rest : List (Upgrade × Option Nat)) (uv : Upgrade × Option Nat)
    (hpre : ∀ x ∈ pre, x.1.id ≤ watermark) (huv : watermark < uv.1.id) :
    new_upgrades_of (pre ++ uv :: rest) watermark = uv :: rest := by
  induction pre with
  | nil =>
    simp [new_upgrades_of, List.dropWhile_cons, Nat.not_le.mpr huv]
  | cons a tl ih =>
    have ha : a.1.id ≤ watermark := hpre a (List.mem_cons_self a tl)
    have htl := ih (fun x hx => hpre x (List.mem_cons_of_mem a hx))
    simp only [new_upgrades_of, List.cons_append, List.dropWhile_cons] at htl ⊢
    simp [ha, htl]

/-- C7 witness: with watermark 5, the leading run of ids 3 and 5 is dropped
and everything from id 6 on is kept, including the later id 4. -/
theorem C7_witness :
    (∀ x ∈ ([(upg 3, none), (upg 5, none)] : List (Upgrade × Option Nat)),
      x.1.id ≤ 5) ∧ 5 < (upg 6).id ∧
    new_upgrades_of
        [(upg 3, none), (upg 5, none), (upg 6, none), (upg 4, none)] 5 =
      [(upg 6, none), (upg 4, none)] :=
  ⟨by decide, by decide,
    C7_dedup_is_skip_while 5 [(upg 3, none), (upg 5, none)] [(upg 4, none)]
      (upg 6, none) (by decide) (by decide)⟩

/-- C10: a log whose first topic differs from the declared signature is
silently ignored; a batch made only of mismatched logs returns Ok with
processor and store unchanged. The parser and the client are universally
quantified, so no parse and no auxiliary call can have been made. -/
theorem C10_mismatched_topic_ignored (parse : Log → Except String Upgrade)
    (vkh : Nat → Except EthClientError Nat) (proc : UpgradesEventProcessor)
    (store : Store) (events : List Log)
    (h : ∀ l ∈ events, l.topic0 ≠ proc.upgrade_proposal_signature) :
    process_events parse vkh proc store events = ⟨proc, store, .ok⟩ := by
  unfold process_events
  rw [parse_and_resolve_no_match parse vkh _ events h]

/-- C10 witness: two logs with topic 2 against a processor whose signature is
1, with a parser and a client that always fail, are a complete no-op. -/
theorem C10_witness :
    (∀ l ∈ [logOf 2 6, logOf 2 7],
      Log.topic0 l ≠ (procW 1 5).upgrade_proposal_signature) ∧
    process_events (fun _ => .error "unreached") (fun _ => .error ⟨0⟩)
        (procW 1 5) [baseV 5] [logOf 2 6, logOf 2 7] =
      ⟨procW 1 5, [baseV 5], .ok⟩ :=
  ⟨by decide,
    C10_mismatched_topic_ignored (fun _ => .error "unreached")
      (fun _ => .error ⟨0⟩) (procW 1 5) [baseV 5] [logOf 2 6, logOf 2 7]
      (by decide)⟩

/-- C3: replay of an already applied batch is a no-op: when every proposal a
batch resolves to has id at or below the watermark (ids non-decreasing
within the batch), process_events on the batch or on any prefix of it
returns Ok and leaves processor and store unchanged; the store is
universally quantified and untouched, so no store access is observable. -/
theorem C3_replay_is_noop (parse : Log → Except String Upgrade)
    (vkh : Nat → Except EthClientError Nat) (proc : UpgradesEventProcessor)
    (store : Store) (events events2 rest : List Log)
    (ups : List (Upgrade × Option Nat))
    (hsplit : events = events2 ++ rest)
    (hres : parse_and_resolve parse vkh proc.upgrade_proposal_signature events =
      .ok ups)
    (_hsorted : List.Pairwise (fun a b => a.1.id ≤ b.1.id) ups)
    (hall : ∀ uv ∈ ups, uv.1.id ≤ proc.last_seen_version_id) :
    process_events parse vkh proc store events2 = ⟨proc, store, .ok⟩ := by
  subst hsplit
  cases hpre : parse_and_resolve parse vkh proc.upgrade_proposal_signature events2 with
  | error e =>
    rw [parse_and_resolve_append_error parse vkh _ events2 rest e hpre] at hres
    cases hres
  | ok u1 =>
    rw [parse_and_resolve_append_ok parse vkh _ events2 rest u1 hpre] at hres
    have hall1 : ∀ uv ∈ u1, uv.1.id ≤ proc.last_seen_version_id := by
      cases hrest : parse_and_resolve parse vkh proc.upgrade_proposal_signature rest with
      | error e => rw [hrest] at hres; cases hres
      | ok u2 =>
        rw [hrest] at hres
        simp only [Except.map, Except.ok.injEq] at hres
        intro uv huv
        exact hall uv (by rw [← hres]; exact List.mem_append_left u2 huv)
    unfold process_events
    simp only [hpre]
    cases u1 with
    | nil => rfl
    | cons a tl =>
      have hnil : new_upgrades_of (a :: tl) proc.last_seen_version_id = [] := by
        simp only [new_upgrades_of]
        rw [List.dropWhile_eq_nil_iff]
        intro x hx
        simpa using hall1 x hx
      simp only [hnil]

/-- C3 witness: a two-log prefix of an already applied three-log batch, ids
3 and 4 against watermark 5, is a no-op. -/
theorem C3_witness :
    ([logOf 1 3, logOf 1 4, logOf 1 5] =
      [logOf 1 3, logOf 1 4] ++ [logOf 1 5]) ∧
    parse_and_resolve parseById vkhOk
        (procW 1 5).upgrade_proposal_signature [logOf 1 3, logOf 1 4, logOf 1 5] =
      .ok [(upg 3, none), (upg 4, none), (upg 5, none)] ∧
    process_events parseById vkhOk (procW 1 5) [baseV 1, baseV 2]
        [logOf 1 3, logOf 1 4] =
      ⟨procW 1 5, [baseV 1, baseV 2], .ok⟩ :=
  ⟨by decide, by decide,
    C3_replay_is_noop parseById vkhOk (procW 1 5) [baseV 1, baseV 2]
      [logOf 1 3, logOf 1 4, logOf 1 5] [logOf 1 3, logOf 1 4] [logOf 1 5]
      [(upg 3, none), (upg 4, none), (upg 5, none)]
      (by decide) (by decide) (by decide) (by decide)⟩

/-- C4: a matching log that fails to parse aborts the whole batch with a
LogParse error carrying the parser message: no version is written, not even
for proposals earlier in the batch (the store is returned unchanged), and
the watermark keeps its prior value. -/
theorem C4_parse_error_aborts_batch (parse : Log → Except String Upgrade)
    (vkh : Nat → Except EthClientError Nat) (proc : UpgradesEventProcessor)
    (store : Store) (pre post : List Log) (bad : Log) (msg : String)
    (ups0 : List (Upgrade × Option Nat))
    (hpre : parse_and_resolve parse vkh proc.upgrade_proposal_signature pre =
      .ok ups0)
    (ht : bad.topic0 = proc.upgrade_proposal_signature)
    (hbad : parse bad = .error msg) :
    process_events parse vkh proc store (pre ++ bad :: post) =
      ⟨proc, store, .error (.logParse msg)⟩ := by
  have hb : parse_and_resolve parse vkh proc.upgrade_proposal_signature
      (bad :: post) = .error (.logParse msg) := by
    simp [parse_and_resolve, ht, hbad]
  have hall := parse_and_resolve_append_ok parse vkh
    proc.upgrade_proposal_signature pre (bad :: post) ups0 hpre
  rw [hb] at hall
  simp only [Except.map] at hall
  unfold process_events
  rw [hall]

/-- C4 witness: batch with ids [6, bad, 7] where the middle log fails to
parse; the run aborts with the LogParse error, store and watermark
unchanged, although id 6 parsed earlier in the batch. -/
theorem C4_witness :
    parse_and_resolve (fun l => if l.payload = 99 then .error "bad" else
        .ok ⟨l.payload, none, 0⟩) vkhOk
      (procW 1 5).upgrade_proposal_signature [logOf 1 6] = .ok [(upg 6, none)] ∧
    (logOf 1 99).topic0 = (procW 1 5).upgrade_proposal_signature ∧
    process_events (fun l => if l.payload = 99 then .error "bad" else
        .ok ⟨l.payload, none, 0⟩) vkhOk (procW 1 5) [baseV 5]
      ([logOf 1 6] ++ logOf 1 99 :: [logOf 1 7]) =
    ⟨procW 1 5, [baseV 5], .error (.logParse "bad")⟩ :=
  ⟨by decide, by decide,
    C4_parse_error_aborts_batch
      (fun l => if l.payload = 99 then .error "bad" else .ok ⟨l.payload, none, 0⟩)
      vkhOk (procW 1 5) [baseV 5] [logOf 1 6] [logOf 1 7] (logOf 1 99) "bad"
      [(upg 6, none)] (by decide) (by decide) (by decide)⟩

/-- C5: a failing scheduler-vk-hash call for any proposal in the batch aborts
the whole call with that client error: no version is written, not even for
proposals whose auxiliary value already resolved earlier in the batch (the
store is returned unchanged), and the watermark keeps its prior value;
resolution runs to the failure before any filtering or persistence, which
the unchanged store for every possible store exhibits. -/
theorem C5_aux_failure_aborts_batch (parse : Log → Except String Upgrade)
    (vkh : Nat → Except EthClientError Nat) (proc : UpgradesEventProcessor)
    (store : Store) (pre post : List Log) (bad : Log) (upgrade : Upgrade)
    (addr : Nat) (ce : EthClientError) (ups0 : List (Upgrade × Option Nat))
    (hpre : parse_and_resolve parse vkh proc.upgrade_proposal_signature pre =
      .ok ups0)
    (ht : bad.topic0 = proc.upgrade_proposal_signature)
    (hparse : parse bad = .ok upgrade)
    (haddr : upgrade.verifier_address = some addr)
    (hfail : vkh addr = .error ce) :
    process_events parse vkh proc store (pre ++ bad :: post) =
      ⟨proc, store, .error (.client ce)⟩ := by
  have hrv : resolve_vk vkh upgrade = .error ce := by
    simp [resolve_vk, haddr, hfail, Except.map]
  have hb : parse_and_resolve parse vkh proc.upgrade_proposal_signature
      (bad :: post) = .error (.client ce) := by
    simp [parse_and_resolve, ht, hparse, hrv]
  have hall := parse_and_resolve_append_ok parse vkh
    proc.upgrade_proposal_signature pre (bad :: post) ups0 hpre
  rw [hb] at hall
  simp only [Except.map] at hall
  unfold process_events
  rw [hall]

/-- C5 witness: id 5 resolves its auxiliary value, then the call for the
verifier of id 6 fails; the whole batch aborts with the client error, store
and watermark unchanged. -/
theorem C5_witness :
    parse_and_resolve (fun l => .ok ⟨l.payload, some l.payload, 0⟩)
      (fun a => if a = 6 then .error ⟨7⟩ else .ok 0)
      (procW 1 4).upgrade_proposal_signature [logOf 1 5] =
        .ok [(⟨5, some 5, 0⟩, some 0)] ∧
    (fun a => if a = 6 then (.error ⟨7⟩ : Except EthClientError Nat) else
      .ok 0) 6 = .error ⟨7⟩ ∧
    process_events (fun l => .ok ⟨l.payload, some l.payload, 0⟩)
      (fun a => if a = 6 then .error ⟨7⟩ else .ok 0) (procW 1 4) [baseV 4]
      ([logOf 1 5] ++ logOf 1 6 :: []) =
    ⟨procW 1 4, [baseV 4], .error (.client ⟨7⟩)⟩ :=
  ⟨by decide, by decide,
    C5_aux_failure_aborts_batch (fun l => .ok ⟨l.payload, some l.payload, 0⟩)
      (fun a => if a = 6 then .error ⟨7⟩ else .ok 0) (procW 1 4) [baseV 4]
      [logOf 1 5] [] (logOf 1 6) ⟨6, some 6, 0⟩ 6 ⟨7⟩ [(⟨5, some 5, 0⟩, some 0)]
      (by decide) (by decide) (by decide) (by decide) (by decide)⟩

/-- C1: with watermark 5 and a store holding versions 1..5, a batch of
parseable proposals with ids [3,4,5,6,7] skips ids 3..5, derives version 6
by applying upgrade 6 to the loaded version 5 and version 7 by applying
upgrade 7 to the loaded version 6, persists exactly those two versions, and
leaves the watermark at 7. -/
theorem C1_watermark5_replay_then_extend (parse : Log → Except String Upgrade)
    (vkh : Nat → Except EthClientError Nat) (proc : UpgradesEventProcessor)
    (l3 l4 l5 l6 l7 : Log) (u3 u4 u5 u6 u7 : Upgrade)
    (k3 k4 k5 k6 k7 : Option Nat) (w1 w2 w3 w4 w5 : ProtocolVersion)
    (hwm : proc.last_seen_version_id = 5)
    (hid3 : u3.id = 3) (hid4 : u4.id = 4) (hid5 : u5.id = 5)
    (hid6 : u6.id = 6) (hid7 : u7.id = 7)
    (hw1 : ProtocolVersion.id w1 = 1) (hw2 : ProtocolVersion.id w2 = 2)
    (hw3 : ProtocolVersion.id w3 = 3) (hw4 : ProtocolVersion.id w4 = 4)
    (hw5 : ProtocolVersion.id w5 = 5)
    (ht3 : l3.topic0 = proc.upgrade_proposal_signature)
    (ht4 : l4.topic0 = proc.upgrade_proposal_signature)
    (ht5 : l5.topic0 = proc.upgrade_proposal_signature)
    (ht6 : l6.topic0 = proc.upgrade_proposal_signature)
    (ht7 : l7.topic0 = proc.upgrade_proposal_signature)
    (hp3 : parse l3 = .ok u3) (hp4 : parse l4 = .ok u4)
    (hp5 : parse l5 = .ok u5) (hp6 : parse l6 = .ok u6)
    (hp7 : parse l7 = .ok u7)
    (hr3 : resolve_vk vkh u3 = .ok k3) (hr4 : resolve_vk vkh u4 = .ok k4)
    (hr5 : resolve_vk vkh u5 = .ok k5) (hr6 : resolve_vk vkh u6 = .ok k6)
    (hr7 : resolve_vk vkh u7 = .ok k7) :
    process_events parse vkh proc [w1, w2, w3, w4, w5] [l3, l4, l5, l6, l7] =
      ⟨setWatermark proc 7,
        [w1, w2, w3, w4, w5, apply_upgrade w5 u6 k6,
          apply_upgrade (apply_upgrade w5 u6 k6) u7 k7], .ok⟩ := by
  have hres : parse_and_resolve parse vkh proc.upgrade_proposal_signature
      [l3, l4, l5, l6, l7] =
      .ok [(u3, k3), (u4, k4), (u5, k5), (u6, k6), (u7, k7)] := by
    simp [parse_and_resolve, ht3, ht4, ht5, ht6, ht7, hp3, hp4, hp5, hp6, hp7,
      hr3, hr4, hr5, hr6, hr7]
  have hnu : new_upgrades_of [(u3, k3), (u4, k4), (u5, k5), (u6, k6), (u7, k7)]
      proc.last_seen_version_id = [(u6, k6), (u7, k7)] := by
    simp [new_upgrades_of, List.dropWhile_cons, hid3, hid4, hid5, hid6, hwm]
  have hload6 : load_previous_version [w1, w2, w3, w4, w5] u6.id = some w5 := by
    simp [load_previous_version, List.find?, hid6, hw1, hw2, hw3, hw4, hw5]
  have hidav : ProtocolVersion.id (apply_upgrade w5 u6 k6) = 6 := by
    simp [apply_upgrade, ProtocolVersion.id, hid6]
  have hload7 : load_previous_version
      [w1, w2, w3, w4, w5, apply_upgrade w5 u6 k6] u7.id =
      some (apply_upgrade w5 u6 k6) := by
    simp [load_previous_version, List.find?, hid7, hw1, hw2, hw3, hw4,
      hw5, hidav]
  have hpersist : persistAll [(u6, k6), (u7, k7)] [w1, w2, w3, w4, w5] =
      ([w1, w2, w3, w4, w5, apply_upgrade w5 u6 k6,
        apply_upgrade (apply_upgrade w5 u6 k6) u7 k7], none) := by
    simp [persistAll, hload6, hload7, save_protocol_version_with_tx]
  unfold process_events
  simp only [hres, hnu, hpersist, List.getLastD, List.getLast_singleton', hid7]

/-- C1 witness: the scenario instantiated with base versions 1..5 and logs
carrying ids 3..7 in their payload. -/
theorem C1_witness :
    process_events parseById vkhOk (procW 1 5)
        [baseV 1, baseV 2, baseV 3, baseV 4, baseV 5]
        [logOf 1 3, logOf 1 4, logOf 1 5, logOf 1 6, logOf 1 7] =
      ⟨setWatermark (procW 1 5) 7,
        [baseV 1, baseV 2, baseV 3, baseV 4, baseV 5,
          apply_upgrade (baseV 5) (upg 6) none,
          apply_upgrade (apply_upgrade (baseV 5) (upg 6) none) (upg 7) none],
        .ok⟩ :=
  C1_watermark5_replay_then_extend parseById vkhOk (procW 1 5)
    (logOf 1 3) (logOf 1 4) (logOf 1 5) (logOf 1 6) (logOf 1 7)
    (upg 3) (upg 4) (upg 5) (upg 6) (upg 7) none none none none none
    (baseV 1) (baseV 2) (baseV 3) (baseV 4) (baseV 5)
    (by decide) (by decide) (by decide) (by decide) (by decide) (by decide)
    (by decide) (by decide) (by decide) (by decide) (by decide) (by decide)
    (by decide) (by decide) (by decide) (by decide) (by decide) (by decide)
    (by decide) (by decide) (by decide) (by decide) (by decide) (by decide)
    (by decide) (by decide)

/-- C2: on every call that returns Ok, the store is extended by exactly one
new record per proposal remaining after the dedup filter, in order, and the
i-th new record is derived by apply_upgrade from the predecessor loaded from
the store as persisted so far; a derived version has exactly one direct
predecessor by construction, so every successful run extends the version
chain linearly. -/
theorem C2_one_write_per_remaining_proposal (parse : Log → Except String Upgrade)
    (vkh : Nat → Except EthClientError Nat) (proc : UpgradesEventProcessor)
    (store : Store) (events : List Log)
    (hok : (process_events parse vkh proc store events).result = .ok) :
    ∃ ups nu newly,
      parse_and_resolve parse vkh proc.upgrade_proposal_signature events =
        .ok ups ∧
      new_upgrades_of ups proc.last_seen_version_id = nu ∧
      (process_events parse vkh proc store events).store = store ++ newly ∧
      newly.length = nu.length ∧
      ∀ i (hi : i < nu.length),
        ∃ prev,
          load_previous_version (store ++ newly.take i)
            (nu.get ⟨i, hi⟩).1.id = some prev ∧
          newly.take (i + 1) = newly.take i ++
            [apply_upgrade prev (nu.get ⟨i, hi⟩).1 (nu.get ⟨i, hi⟩).2] := by
  rcases process_events_cases parse vkh proc store events with
    ⟨e, h⟩ | ⟨h, ups, hres, hnu⟩ |
    ⟨ups, uv, rest, st2, hres, hnu, ⟨hp, h⟩ | ⟨msg, hp, h⟩⟩
  · rw [h] at hok; cases hok
  · refine ⟨ups, [], [], hres, hnu, by simp [h], rfl, ?_⟩
    intro i hi
    exact absurd hi (Nat.not_lt_zero i)
  · rcases persistAll_ok_chain (uv :: rest) store st2 hp with
      ⟨newly, hst, hlen, hch⟩
    exact ⟨ups, uv :: rest, newly, hres, hnu, by rw [h]; exact hst, hlen, hch⟩
  · rw [h] at hok; cases hok

/-- C2 witness: the chain-extension shape holds on a concrete successful run
with watermark 5 and delivered ids 6 and 7. -/
theorem C2_witness :
    (process_events parseById vkhOk (procW 1 5) [baseV 5]
        [logOf 1 6, logOf 1 7]).result = .ok ∧
    ∃ ups nu newly,
      parse_and_resolve parseById vkhOk
          (procW 1 5).upgrade_proposal_signature [logOf 1 6, logOf 1 7] =
        .ok ups ∧
      new_upgrades_of ups (procW 1 5).last_seen_version_id = nu ∧
      (process_events parseById vkhOk (procW 1 5) [baseV 5]
          [logOf 1 6, logOf 1 7]).store = [baseV 5] ++ newly ∧
      newly.length = nu.length ∧
      ∀ i (hi : i < nu.length),
        ∃ prev,
          load_previous_version ([baseV 5] ++ newly.take i)
            (nu.get ⟨i, hi⟩).1.id = some prev ∧
          newly.take (i + 1) = newly.take i ++
            [apply_upgrade prev (nu.get ⟨i, hi⟩).1 (nu.get ⟨i, hi⟩).2] :=
  ⟨by decide,
    C2_one_write_per_remaining_proposal parseById vkhOk (procW 1 5) [baseV 5]
      [logOf 1 6, logOf 1 7] (by decide)⟩

/-- C6 counterexample: with watermark 5, a store whose only version has id 5,
and a delivered proposal with id 7, the minimum remaining id 7 exceeds
watermark + 1 = 6 and load_previous_version finds no version with id 6; the
call then ends in the runtime panic of the expect, and not in an error
variant of the returned error type as the claim states. -/
theorem C6_counterexample :
    process_events parseById vkhOk (procW 1 5) [baseV 5] [logOf 1 7] =
      ⟨procW 1 5, [baseV 5],
        .panic "Expected previous version to be present in DB"⟩ ∧
    ¬ ∃ e, (process_events parseById vkhOk (procW 1 5) [baseV 5]
        [logOf 1 7]).result = ProcResult.error e := by
  refine ⟨by decide, ?_⟩
  rintro ⟨e, he⟩
  have hres : (process_events parseById vkhOk (procW 1 5) [baseV 5]
      [logOf 1 7]).result =
      ProcResult.panic "Expected previous version to be present in DB" := by
    decide
  rw [hres] at he
  exact ProcResult.noConfusion he

/-- C6 (amended): on a gap — no stored version carries the id one below the
minimum remaining id — process_events aborts by the runtime panic of the
expect call (not by returning an error variant); it does not retry, does not
skip the proposal, and writes nothing: store and watermark are returned
unchanged. -/
theorem C6_gap_is_fatal (parse : Log → Except String Upgrade)
    (vkh : Nat → Except EthClientError Nat) (proc : UpgradesEventProcessor)
    (store : Store) (events : List Log) (ups : List (Upgrade × Option Nat))
    (uv : Upgrade × Option Nat) (rest : List (Upgrade × Option Nat))
    (hres : parse_and_resolve parse vkh proc.upgrade_proposal_signature events =
      .ok ups)
    (hnu : new_upgrades_of ups proc.last_seen_version_id = uv :: rest)
    (hgap : ∀ v ∈ store, ProtocolVersion.id v ≠ uv.1.id - 1) :
    process_events parse vkh proc store events =
      ⟨proc, store, .panic "Expected previous version to be present in DB"⟩ := by
  obtain ⟨upgrade, svh⟩ := uv
  have hload : load_previous_version store upgrade.id = none := by
    simp only [load_previous_version]
    rw [List.find?_eq_none]
    intro v hv
    simpa using hgap v hv
  have hpersist : persistAll ((upgrade, svh) :: rest) store =
      (store, some "Expected previous version to be present in DB") := by
    simp [persistAll, hload]
  cases ups with
  | nil =>
    rw [show new_upgrades_of [] proc.last_seen_version_id = [] from rfl] at hnu
    cases hnu
  | cons u0 urest =>
    unfold process_events
    simp only [hres, hnu, hpersist]

/-- C6 witness for the amended claim: watermark 5, store holding only id 5,
delivered id 7; the run panics with store and watermark unchanged. -/
theorem C6_witness :
    parse_and_resolve parseById vkhOk
        (procW 1 5).upgrade_proposal_signature [logOf 1 7] =
      .ok [(upg 7, none)] ∧
    new_upgrades_of [(upg 7, none)] (procW 1 5).last_seen_version_id =
      [(upg 7, none)] ∧
    (∀ v ∈ [baseV 5], ProtocolVersion.id v ≠ (upg 7, (none : Option Nat)).1.id - 1) ∧
    process_events parseById vkhOk (procW 1 5) [baseV 5] [logOf 1 7] =
      ⟨procW 1 5, [baseV 5],
        .panic "Expected previous version to be present in DB"⟩ :=
  ⟨by decide, by decide, by decide,
    C6_gap_is_fatal parseById vkhOk (procW 1 5) [baseV 5] [logOf 1 7]
      [(upg 7, none)] (upg 7, none) [] (by decide) (by decide) (by decide)⟩

/-- Shape of the processor after one call: only the watermark field can have
changed, and it is unchanged unless the call returned Ok. -/
theorem process_events_processor_shape (parse : Log → Except String Upgrade)
    (vkh : Nat → Except EthClientError Nat) (proc : UpgradesEventProcessor)
    (store : Store) (events : List Log) :
    (∃ i, (process_events parse vkh proc store events).processor =
      setWatermark proc i) ∧
    ((process_events parse vkh proc store events).result ≠ ProcResult.ok →
      (process_events parse vkh proc store events).processor = proc) := by
  rcases process_events_cases parse vkh proc store events with
    ⟨e, h⟩ | ⟨h, -⟩ | ⟨ups, uv, rest, st2, -, -, ⟨hp, h⟩ | ⟨msg, hp, h⟩⟩ <;>
    rw [h]
  · exact ⟨⟨proc.last_seen_version_id, rfl⟩, fun _ => rfl⟩
  · exact ⟨⟨proc.last_seen_version_id, rfl⟩, fun _ => rfl⟩
  · exact ⟨⟨(rest.getLastD uv).1.id, rfl⟩, fun hne => absurd rfl hne⟩
  · exact ⟨⟨proc.last_seen_version_id, rfl⟩, fun _ => rfl⟩

/-- Repeated dispatcher cycles: fold process_events over a list of batches,
threading the processor and the store. -/
def process_many (parse : Log → Except String Upgrade)
    (vkh : Nat → Except EthClientError Nat) (proc : UpgradesEventProcessor)
    (store : Store) : List (List Log) → UpgradesEventProcessor × Store
  | [] => (proc, store)
  | b :: bs =>
    process_many parse vkh (process_events parse vkh proc store b).processor
      (process_events parse vkh proc store b).store bs

/-- C8: the watermark is advanced at most once per call, only on a run whose
result is Ok, only after persistAll has completed over the whole remainder,
and only to the id of the last remaining proposal; and whenever the
watermark was at or below the store maximum before a call it stays so after
the call, whatever the result. -/
theorem C8_watermark_discipline (parse : Log → Except String Upgrade)
    (vkh : Nat → Except EthClientError Nat) (proc : UpgradesEventProcessor)
    (store : Store) (events : List Log) :
    ((process_events parse vkh proc store events).processor.last_seen_version_id =
        proc.last_seen_version_id ∨
      ((process_events parse vkh proc store events).result = .ok ∧
        ∃ ups uv rest st2,
          parse_and_resolve parse vkh proc.upgrade_proposal_signature events =
            .ok ups ∧
          new_upgrades_of ups proc.last_seen_version_id = uv :: rest ∧
          persistAll (uv :: rest) store = (st2, none) ∧
          (process_events parse vkh proc store events).store = st2 ∧
          (process_events parse vkh proc store events).processor.last_seen_version_id =
            (rest.getLastD uv).1.id)) ∧
    (proc.last_seen_version_id ≤ max_applied_version_id store →
      (process_events parse vkh proc store events).processor.last_seen_version_id ≤
        max_applied_version_id (process_events parse vkh proc store events).store) := by
  rcases process_events_cases parse vkh proc store events with
    ⟨e, h⟩ | ⟨h, -⟩ | ⟨ups, uv, rest, st2, hres, hnu, ⟨hp, h⟩ | ⟨msg, hp, h⟩⟩
  · rw [h]; exact ⟨Or.inl rfl, fun hle => hle⟩
  · rw [h]; exact ⟨Or.inl rfl, fun hle => hle⟩
  · rw [h]
    constructor
    · exact Or.inr ⟨rfl, ups, uv, rest, st2, hres, hnu, hp, rfl, rfl⟩
    · intro hle
      have hmem := getLastD_mem rest uv
      rcases persistAll_ids (uv :: rest) store st2 hp (rest.getLastD uv) hmem
        with ⟨v, hv, hvid⟩
      have hvle := mem_le_max_applied st2 v hv
      rw [hvid] at hvle
      exact hvle
  · rw [h]
    refine ⟨Or.inl rfl, fun hle => ?_⟩
    have hsub : ∀ v ∈ store, v ∈ st2 := by
      intro v hv
      have hin := persistAll_mono (uv :: rest) store v hv
      rw [hp] at hin
      exact hin
    exact le_trans hle (max_applied_le_of_subset store st2 hsub)

/-- C8 witness: with watermark 5 at or below the store maximum 5, after a
successful run on id 6 the watermark 6 is still at or below the new store
maximum. -/
theorem C8_witness :
    (procW 1 5).last_seen_version_id ≤ max_applied_version_id [baseV 5] ∧
    (process_events parseById vkhOk (procW 1 5) [baseV 5]
        [logOf 1 6]).processor.last_seen_version_id ≤
      max_applied_version_id
        (process_events parseById vkhOk (procW 1 5) [baseV 5] [logOf 1 6]).store :=
  ⟨by decide,
    (C8_watermark_discipline parseById vkhOk (procW 1 5) [baseV 5]
      [logOf 1 6]).2 (by decide)⟩

/-- C9: one call mutates no processor field except the watermark — diamond
proxy address, upgrade-proposal signature and executeUpgrade short signature
are unchanged; a call whose result is not Ok leaves the watermark unchanged
as well; and relevant_topic is the same before and after any sequence of
process_events calls. -/
theorem C9_frame_only_watermark (parse : Log → Except String Upgrade)
    (vkh : Nat → Except EthClientError Nat) (proc : UpgradesEventProcessor)
    (store : Store) (events : List Log) (batches : List (List Log)) :
    ((process_events parse vkh proc store events).processor.diamond_proxy_address =
        proc.diamond_proxy_address ∧
      (process_events parse vkh proc store events).processor.upgrade_proposal_signature =
        proc.upgrade_proposal_signature ∧
      (process_events parse vkh proc store events).processor.execute_upgrade_short_signature =
        proc.execute_upgrade_short_signature) ∧
    ((process_events parse vkh proc store events).result ≠ ProcResult.ok →
      (process_events parse vkh proc store events).processor.last_seen_version_id =
        proc.last_seen_version_id) ∧
    relevant_topic (process_many parse vkh proc store batches).1 =
      relevant_topic proc := by
  rcases process_events_processor_shape parse vkh proc store events with ⟨⟨i, hi⟩, herr⟩
  refine ⟨by rw [hi]; exact ⟨rfl, rfl, rfl⟩, fun hne => by rw [herr hne], ?_⟩
  have hmany : ∀ (bs : List (List Log)) (p : UpgradesEventProcessor) (s : Store),
      (process_many parse vkh p s bs).1.upgrade_proposal_signature =
        p.upgrade_proposal_signature := by
    intro bs
    induction bs with
    | nil => intro p s; rfl
    | cons b tl ih =>
      intro p s
      rcases (process_events_processor_shape parse vkh p s b).1 with ⟨j, hj⟩
      calc (process_many parse vkh p s (b :: tl)).1.upgrade_proposal_signature
          = (process_events parse vkh p s b).processor.upgrade_proposal_signature :=
            ih (process_events parse vkh p s b).processor
              (process_events parse vkh p s b).store
        _ = p.upgrade_proposal_signature := by rw [hj]; rfl
  exact hmany batches proc store

/-- C9 witness: relevant_topic is unchanged across a concrete two-batch
sequence containing a successful extension and a replay. -/
theorem C9_witness :
    relevant_topic (process_many parseById vkhOk (procW 1 5) [baseV 5]
        [[logOf 1 6], [logOf 1 6, logOf 1 7]]).1 =
      relevant_topic (procW 1 5) :=
  (C9_frame_only_watermark parseById vkhOk (procW 1 5) [baseV 5] [logOf 1 6]
    [[logOf 1 6], [logOf 1 6, logOf 1 7]]).2.2

end EthWatch
